import Mathlib

/-!
Verification development for the keia-api assessment pipeline.

The JavaScript sources are shallowly embedded as follows:
- JS numbers are modelled as `ℚ` (the code only adds, multiplies and compares
  scores; all constants in the code are exactly representable, and every
  theorem about thresholds is about exact comparisons).
- Calendar dates are modelled as day numbers in `ℤ` (the code normalises every
  date to UTC midnight via `toISOString().slice(0,10)` before subtracting, so
  a date is exactly a whole number of days).
- `undefined`/`null` fields are modelled with `Option`.
- JS strings that carry JSON text are modelled as `List Char`.
- `Math.round` rounds half away from zero for positive arguments, which on the
  non-negative values it is applied to here equals `⌊x + 1/2⌋`.
-/

namespace Keia

/-- JS `Math.round` on the non-negative rationals this code applies it to:
round half up, i.e. `⌊q + 1/2⌋`. -/
def jsRound (q : ℚ) : ℤ := ⌊q + 1/2⌋

/-! ## LevelMapper (english-test.js, `mapScoresToLevel`) -/

/-- The three sub-scores handed to `mapScoresToLevel`.  The source reads
`Number(scores.vocab || 0)` etc.; at every call site the three keys are
present numbers, and `x || 0` is the identity on numbers (it maps `0` to `0`),
so the fields are plain rationals here. -/
structure SubScores where
  vocab : ℚ
  grammar : ℚ
  cohesion : ℚ
deriving DecidableEq

structure LevelResult where
  level : String
  overall : ℚ
deriving DecidableEq

/-- Embedding of `mapScoresToLevel` from api/english-test.js lines 73-86. -/
def mapScoresToLevel (s : SubScores) : LevelResult :=
  let overall : ℚ := 0.4 * s.vocab + 0.4 * s.grammar + 0.2 * s.cohesion
  let level : String :=
    if overall ≤ 20 then "A1"
    else if overall ≤ 35 then "A2"
    else if overall ≤ 55 then "B1"
    else if overall ≤ 75 then "B2"
    else if overall ≤ 90 then "C1"
    else "C2"
  ⟨level, overall⟩

/-- The ascending inclusive threshold table as the spec words it; everything
above the last bound is C2. -/
def levelThresholds : List (ℚ × String) :=
  [(20, "A1"), (35, "A2"), (55, "B1"), (75, "B2"), (90, "C1")]

/-- First match in the ascending inclusive threshold table (spec wording). -/
def firstMatchLevel (overall : ℚ) : String :=
  match levelThresholds.find? (fun p => decide (overall ≤ p.1)) with
  | some p => p.2
  | none => "C2"

/-! ## StreakEngine (assessWriting.js `computeNewStreak`, and the inline
copy in english-test.js) -/

structure StreakResult where
  streak : ℕ
  todayISO : ℤ
  updated : Bool
deriving DecidableEq

/-- Embedding of `computeNewStreak` from api/assessWriting.js lines 109-124.
`prevISO` is the previous assessment date as a day number (`none` = absent),
`prevStreak` the stored streak (JS default / `|| 0` collapse absent to `0`).
The source computes `diffDays = Math.round((tDate - prevDate)/86400000)` on
dates already normalised to midnight, which is exactly `today - prev` in day
numbers. `prevStreak || 1` is `1` when the streak is `0`. -/
def computeNewStreak (today : ℤ) (prevISO : Option ℤ) (prevStreak : ℕ) : StreakResult :=
  match prevISO with
  | none => ⟨1, today, true⟩
  | some prev =>
    let diffDays : ℤ := today - prev
    if diffDays = 0 then ⟨if prevStreak = 0 then 1 else prevStreak, today, false⟩
    else if diffDays = 1 then ⟨prevStreak + 1, today, true⟩
    else ⟨1, today, true⟩

/-- The StreakEngine state machine exactly as the spec states it (used only to
compare against `computeNewStreak`): absent date → 1/changed; same day → keep
(or 1 if zero), unchanged; yesterday → +1/changed; anything else → reset. -/
def advanceSpec (today : ℤ) (prevISO : Option ℤ) (prevStreak : ℕ) : StreakResult :=
  match prevISO with
  | none => ⟨1, today, true⟩
  | some prev =>
    if prev = today then ⟨max prevStreak 1, today, false⟩
    else if prev = today - 1 then ⟨prevStreak + 1, today, true⟩
    else ⟨1, today, true⟩

/-- Embedding of the inline streak computation in api/english-test.js lines
151-163: start from `userData.streak || 0`; if the stored date string equals
today, leave the streak as it is; otherwise diff the dates. -/
def inlineStreak (today : ℤ) (prevISO : Option ℤ) (prevStreak : ℕ) : ℕ :=
  if prevISO = some today then prevStreak
  else
    match prevISO with
    | some prev => if today - prev = 1 then prevStreak + 1 else 1
    | none => 1

/-! ## Multiple-choice grading (english-test.js `gradeMCQs`) -/

/-- Server-side question: id, type ("mcq" or "writing"), canonical answer
(`none` for writing questions, whose `answer` is `null`). -/
structure Question where
  qid : String
  qtype : String
  answer : Option String
deriving DecidableEq

/-- One element of the client `answers` array. `selected` is `none` when the
client supplied no selection (JS `undefined`; a JS `null` behaves identically
in every comparison the code makes). -/
structure AnswerItem where
  atype : Option String
  selected : Option String
  writingSample : Option String
deriving DecidableEq

structure GradeDetail where
  qid : String
  expected : Option String
  selected : Option String
  isCorrect : Bool
deriving DecidableEq

structure Grading where
  correct : ℕ
  total : ℕ
  details : List GradeDetail
deriving DecidableEq

/-- `answersByIndex[idx]?.selected`: the selection supplied at a question's
position, if any. -/
def selAt (answers : List AnswerItem) (idx : ℕ) : Option String :=
  (answers[idx]?).bind AnswerItem.selected

/-- The correctness test of `gradeMCQs`:
`selected !== undefined && selected === q.answer`. -/
def isCorrectSel (answers : List AnswerItem) (idx : ℕ) (q : Question) : Bool :=
  match selAt answers idx with
  | some s => some s == q.answer
  | none => false

/-- The body of the `questions.forEach((q, idx) => ...)` loop of `gradeMCQs`:
for an mcq question, bump the counter when the selection matches and push a
detail record; skip other question types. -/
def gradeStep (answers : List AnswerItem) (acc : ℕ × List GradeDetail)
    (iq : ℕ × Question) : ℕ × List GradeDetail :=
  if iq.2.qtype == "mcq" then
    ((if isCorrectSel answers iq.1 iq.2 then acc.1 + 1 else acc.1),
     acc.2 ++ [⟨iq.2.qid, iq.2.answer, selAt answers iq.1, isCorrectSel answers iq.1 iq.2⟩])
  else acc

/-- Embedding of `gradeMCQs` from api/english-test.js lines 25-37: walk the
questions with their index, count a question iff its type is "mcq", mark it
correct iff a selection was supplied at that position and strictly equals the
server-held answer; `total` is the number of mcq questions. -/
def gradeMCQs (questions : List Question) (answers : List AnswerItem) : Grading :=
  let r := questions.enum.foldl (gradeStep answers) (0, [])
  ⟨r.1, (questions.filter (fun q => q.qtype == "mcq")).length, r.2⟩

/-- `Math.round((grading.correct / Math.max(grading.total,1)) * 100)` from
api/english-test.js line 114. -/
def mcqPercent (g : Grading) : ℤ :=
  jsRound ((g.correct : ℚ) / (max (g.total : ℚ) 1) * 100)

/-- The server-held canonical question list of api/english-test.js
lines 98-110. -/
def QUESTIONS : List Question :=
  [⟨"q1", "mcq", some "went"⟩,
   ⟨"q2", "mcq", some "study"⟩,
   ⟨"q3", "mcq", some "In a restaurant"⟩,
   ⟨"q4", "mcq", some "He doesn't like pizza"⟩,
   ⟨"q5", "mcq", some "Verb is incorrect"⟩,
   ⟨"q6", "writing", none⟩,
   ⟨"q7", "mcq", some "had arrived"⟩,
   ⟨"q8", "mcq", some "The project will be finished next week"⟩,
   ⟨"q9", "mcq", some "should have"⟩,
   ⟨"q10", "mcq", some "He said he was busy"⟩,
   ⟨"q11", "mcq", some "turn off"⟩]

/-! ## Placement-path score merge (english-test.js handler lines 127-143) -/

/-- The `scores` object of a parsed Gemini evaluation; each key may be
absent. -/
structure GScores where
  vocab : Option ℚ
  grammar : Option ℚ
  cohesion : Option ℚ
deriving DecidableEq

/-- A parsed Gemini placement evaluation (`geminiParsed`); the whole `scores`
object, the confidence and the analysis text may each be absent. -/
structure GeminiParsed where
  scores : Option GScores
  confidence : Option ℚ
  analysis : Option String
deriving DecidableEq

/-- JS `x || d` on strings: the fallback also fires on the empty string. -/
def jsOrStr (x : Option String) (d : String) : String :=
  match x with
  | some s => if s = "" then d else s
  | none => d

/-- The merged sub-scores: `geminiParsed?.scores?.vocab ?? mcqPercent` etc.
(`??` keeps a supplied `0`, so `Option.getD` is exact). -/
def mergedScores (g : Option GeminiParsed) (mcqPct : ℚ) : SubScores :=
  ⟨((g.bind GeminiParsed.scores).bind GScores.vocab).getD mcqPct,
   ((g.bind GeminiParsed.scores).bind GScores.grammar).getD mcqPct,
   ((g.bind GeminiParsed.scores).bind GScores.cohesion).getD mcqPct⟩

/-- `geminiParsed?.confidence ?? (mcqPercent/100)`, then `Number(x) || 0`
(identity on a number, since `0 || 0 = 0`). -/
def finalConfidenceVal (g : Option GeminiParsed) (mcqPct : ℚ) : ℚ :=
  (g.bind GeminiParsed.confidence).getD (mcqPct / 100)

structure PlacementResult where
  level : String
  confidence : ℚ
  scores : SubScores
  explanation : String
deriving DecidableEq

/-- The result assembled by the placement handler (lines 127-143), given the
Gemini outcome (`none` when the model call failed or was skipped) and the
grading of the fixed question list. -/
def placementResult (g : Option GeminiParsed) (grading : Grading) : PlacementResult :=
  let pct : ℚ := (mcqPercent grading : ℚ)
  let scores := mergedScores g pct
  let mapping := mapScoresToLevel scores
  ⟨mapping.level,
   finalConfidenceVal g pct,
   scores,
   jsOrStr (g.bind GeminiParsed.analysis) "MCQ accuracy"⟩

/-! ## Badges (english-test.js handler lines 165-178) -/

/-- One line `if (streak >= t && !avatars.includes(name)) avatars.push(name)`
of the source. -/
def addBadge (name : String) (threshold : ℕ) (streak : ℕ) (avatars : List String) :
    List String :=
  if threshold ≤ streak ∧ name ∉ avatars then avatars ++ [name] else avatars

/-- The four sequential badge updates of the placement handler. -/
def updateAvatars (streak : ℕ) (avatars : List String) : List String :=
  addBadge "gold" 30 streak
    (addBadge "silver" 14 streak
      (addBadge "bronze" 7 streak
        (addBadge "starter" 3 streak avatars)))

/-! ## Persistence (the Firestore writes of the two handlers) -/

/-- The per-user document as this pipeline sees it.  Every field may be absent
(first-time users start from `{}`); `set(..., {merge:true})` preserves fields
the update does not mention. -/
structure UserDoc where
  level : Option String
  levelConfidence : Option ℚ
  lastAssessmentDateISO : Option ℤ
  streak : Option ℕ
  avatars : Option (List String)
deriving DecidableEq

def emptyDoc : UserDoc := ⟨none, none, none, none, none⟩

/-- An appended assessment history entry (only the discriminating type
matters for the claims). -/
structure HistoryEntry where
  etype : String
deriving DecidableEq

/-- A schema-conforming parsed model output for the writing path:
`{level, confidence, scores, ...}`, each field possibly absent. -/
structure WParsed where
  level : Option String
  confidence : Option ℚ
  scores : Option GScores
deriving DecidableEq

/-- The persistence step of api/assessWriting.js lines 80-100: compute the new
streak from the stored date/streak, then merge-write level (model-reported, or
"Unknown" when absent/empty — `parsed.level || "Unknown"`), confidence
(`parsed.confidence ?? 0`), today's date and the streak, and append one
history entry of type "writing".  The write never mentions `avatars`, so the
merge leaves that field as it was. -/
def writingPersist (today : ℤ) (u : UserDoc) (parsed : WParsed) :
    UserDoc × List HistoryEntry :=
  let s := computeNewStreak today u.lastAssessmentDateISO (u.streak.getD 0)
  ({ level := some (jsOrStr parsed.level "Unknown"),
     levelConfidence := some (parsed.confidence.getD 0),
     lastAssessmentDateISO := some today,
     streak := some s.streak,
     avatars := u.avatars },
   [⟨"writing"⟩])

/-- The persistence step of api/english-test.js lines 146-182: inline streak
computation, unconditional badge update, merge-write of level/confidence/date/
streak/avatars, and one history entry of type "placement". -/
def placementPersist (today : ℤ) (u : UserDoc) (result : PlacementResult) :
    UserDoc × List HistoryEntry :=
  let streak := inlineStreak today u.lastAssessmentDateISO (u.streak.getD 0)
  let avatars := updateAvatars streak (u.avatars.getD [])
  ({ level := some result.level,
     levelConfidence := some result.confidence,
     lastAssessmentDateISO := some today,
     streak := some streak,
     avatars := some avatars },
   [⟨"placement"⟩])

/-! ## Transcription polling (assessSpeaking.js `pollTranscript`) -/

/-- One provider status response: `completed` with the transcript text,
`error` with an optional detail, or any other status string. -/
inductive TranscriptStatus where
  | completed (text : String)
  | errored (detail : Option String)
  | pending (status : String)
deriving DecidableEq

def TranscriptStatus.isPending : TranscriptStatus → Bool
  | .pending _ => true
  | _ => false

/-- Embedding of the `while (true)` loop of api/assessSpeaking.js lines 60-70.
`responses k` is the provider's k-th status answer.  Each iteration first
sleeps 3000 ms, then checks: `completed` returns the text, `error` throws
`"Transcription error: " + (j.error || "unknown")`, anything else loops.  The
loop has no bound of its own, so it is embedded with explicit fuel: `none`
means the loop is still running after `fuel` checks.  On termination the
first component is the total milliseconds slept (3000 per check). -/
def pollAux (responses : ℕ → TranscriptStatus) : ℕ → ℕ → Option (ℕ × Except String String)
  | _, 0 => none
  | k, fuel + 1 =>
    match responses k with
    | .completed t => some (3000 * (k + 1), .ok t)
    | .errored d => some (3000 * (k + 1), .error ("Transcription error: " ++ d.getD "unknown"))
    | .pending _ => pollAux responses (k + 1) fuel

def pollTranscript (responses : ℕ → TranscriptStatus) (fuel : ℕ) :
    Option (ℕ × Except String String) :=
  pollAux responses 0 fuel

/-! ## ResponseNormalizer

The two call sites (api/assessWriting.js lines 68-77, api/english-test.js
lines 60-70) run the same extraction on the model's raw text: strip
triple-backtick fences (`replace(/```json/gi,"").replace(/```/g,"")`), trim,
try `JSON.parse` on the whole text, and on failure `JSON.parse` the greedy
match of `/\x7b[\s\S]*\x7d/` (first `{` to last `}`).

JSON values are modelled by `Json` below; raw text is `List Char`.  The
`JSON.parse` model covers the JSON subset the theorems quantify over:
numbers are integers, strings contain no escape sequences (validity below
excludes `"` , `\` and backticks from string contents).  It is checked only
on inputs where it agrees with the real `JSON.parse`.
-/

/-- A JSON value of the modelled subset.  Object fields are an association
list in source order; string contents are kept as character lists and numbers
as integers. -/
inductive Json where
  | obj (fields : List (List Char × Json))
  | arr (items : List Json)
  | str (content : List Char)
  | num (int : ℤ)
  | bool (b : Bool)
  | null

/-- Decimal digit character for a digit value. -/
def dChar (d : ℕ) : Char := Char.ofNat (48 + d)

/-- Most-significant-first decimal digits of a natural number, with structural
fuel so that it evaluates by kernel reduction. -/
def natToCharsAux : ℕ → ℕ → List Char → List Char
  | 0, _, acc => acc
  | f + 1, n, acc =>
    if n < 10 then dChar n :: acc
    else natToCharsAux f (n / 10) (dChar (n % 10) :: acc)

def natToChars (n : ℕ) : List Char := natToCharsAux (n + 1) n []

def intToChars (m : ℤ) : List Char :=
  if m < 0 then '-' :: natToChars m.natAbs else natToChars m.toNat

mutual
/-- Compact serialisation of a `Json` value; only used to state which object a
raw text embeds. -/
def serialize : Json → List Char
  | .obj [] => ['{', '}']
  | .obj (m :: fs) => '{' :: serializeMember m ++ serializeMembers fs ++ ['}']
  | .arr [] => ['[', ']']
  | .arr (x :: xs) => '[' :: serialize x ++ serializeItems xs ++ [']']
  | .str s => '"' :: s ++ ['"']
  | .num n => intToChars n
  | .bool true => ['t', 'r', 'u', 'e']
  | .bool false => ['f', 'a', 'l', 's', 'e']
  | .null => ['n', 'u', 'l', 'l']

def serializeItems : List Json → List Char
  | [] => []
  | x :: xs => ',' :: serialize x ++ serializeItems xs

def serializeMember : List Char × Json → List Char
  | (k, v) => '"' :: k ++ '"' :: ':' :: serialize v

def serializeMembers : List (List Char × Json) → List Char
  | [] => []
  | m :: fs => ',' :: serializeMember m ++ serializeMembers fs
end

/-- Characters allowed inside a modelled JSON string: printable, and none of
the three characters the serializer cannot emit verbatim (`"` and `\`) or
that fence stripping could corrupt (a backtick). -/
def okStrChar (c : Char) : Bool :=
  32 ≤ c.toNat && c ≠ '"' && c ≠ '\\' && c ≠ '`'

mutual
/-- Validity of a `Json` value for the round-trip statement: every string is
made of `okStrChar` characters and object keys are distinct. -/
def validJson : Json → Bool
  | .obj fs => validMembers fs && decide ((fs.map Prod.fst).Nodup)
  | .arr xs => validItems xs
  | .str s => s.all okStrChar
  | .num _ => true
  | .bool _ => true
  | .null => true

def validItems : List Json → Bool
  | [] => true
  | x :: xs => validJson x && validItems xs

def validMembers : List (List Char × Json) → Bool
  | [] => true
  | (k, v) :: fs => k.all okStrChar && validJson v && validMembers fs
end

/-- JSON / JS whitespace relevant here. -/
def isWsChar (c : Char) : Bool :=
  c = ' ' || c = '\n' || c = '\t' || c = '\r'

def skipWs (cs : List Char) : List Char := cs.dropWhile isWsChar

/-- Value of a most-significant-first digit list. -/
def digitsVal (ds : List Char) : ℕ :=
  ds.foldl (fun a c => 10 * a + (c.toNat - 48)) 0

def parseNatFrom (cs : List Char) : Option (ℕ × List Char) :=
  let ds := cs.takeWhile Char.isDigit
  if ds = [] then none else some (digitsVal ds, cs.dropWhile Char.isDigit)

def parseNumFrom (cs : List Char) : Option (Json × List Char) :=
  match cs with
  | c :: rest =>
    if c = '-' then (parseNatFrom rest).map (fun p => (Json.num (-(p.1 : ℤ)), p.2))
    else (parseNatFrom (c :: rest)).map (fun p => (Json.num (p.1 : ℤ), p.2))
  | [] => none

/-- Body of a JSON string after the opening quote: everything up to the next
quote (the modelled subset has no escapes). -/
def parseStrBody (cs : List Char) : Option (List Char × List Char) :=
  match cs.dropWhile (fun c => c != '"') with
  | '"' :: rest => some (cs.takeWhile (fun c => c != '"'), rest)
  | _ => none

/-- The three mutually recursive parsers (value, array items, object
members), built by recursion on fuel so that they evaluate by kernel
reduction.  Array-item and object-member parsing expect their input after the
opening bracket with whitespace already skipped. -/
def parsersF : ℕ →
    (List Char → Option (Json × List Char)) ×
    (List Char → Option (List Json × List Char)) ×
    (List Char → Option (List (List Char × Json) × List Char))
  | 0 => (fun _ => none, fun _ => none, fun _ => none)
  | fuel + 1 =>
    let P := parsersF fuel
    (fun cs =>
      match skipWs cs with
      | [] => none
      | c :: rest =>
        if c = '{' then
          match skipWs rest with
          | [] => none
          | c2 :: cs2 =>
            if c2 = '}' then some (.obj [], cs2)
            else (P.2.2 (c2 :: cs2)).map (fun p => (.obj p.1, p.2))
        else if c = '[' then
          match skipWs rest with
          | [] => none
          | c2 :: cs2 =>
            if c2 = ']' then some (.arr [], cs2)
            else (P.2.1 (c2 :: cs2)).map (fun p => (.arr p.1, p.2))
        else if c = '"' then (parseStrBody rest).map (fun p => (.str p.1, p.2))
        else if c = 't' then
          if rest.take 3 = ['r', 'u', 'e'] then some (.bool true, rest.drop 3) else none
        else if c = 'f' then
          if rest.take 4 = ['a', 'l', 's', 'e'] then some (.bool false, rest.drop 4) else none
        else if c = 'n' then
          if rest.take 3 = ['u', 'l', 'l'] then some (.null, rest.drop 3) else none
        else parseNumFrom (c :: rest),
     fun cs =>
      match P.1 cs with
      | none => none
      | some (v, r1) =>
        match skipWs r1 with
        | ',' :: r2 => (P.2.1 r2).map (fun p => (v :: p.1, p.2))
        | ']' :: r2 => some ([v], r2)
        | _ => none,
     fun cs =>
      match cs with
      | '"' :: rest =>
        match parseStrBody rest with
        | none => none
        | some (k, r1) =>
          match skipWs r1 with
          | ':' :: r2 =>
            match P.1 r2 with
            | none => none
            | some (v, r3) =>
              match skipWs r3 with
              | ',' :: r4 => (P.2.2 (skipWs r4)).map (fun p => ((k, v) :: p.1, p.2))
              | '}' :: r4 => some ([(k, v)], r4)
              | _ => none
          | _ => none
      | _ => none)

def parseValue (fuel : ℕ) (cs : List Char) : Option (Json × List Char) :=
  (parsersF fuel).1 cs

def parseArrItems (fuel : ℕ) (cs : List Char) : Option (List Json × List Char) :=
  (parsersF fuel).2.1 cs

def parseObjMembers (fuel : ℕ) (cs : List Char) :
    Option (List (List Char × Json) × List Char) :=
  (parsersF fuel).2.2 cs

mutual
/-- Fuel bound sufficient for the parsers to traverse a value. -/
def jsize : Json → ℕ
  | .obj fs => 1 + msize fs
  | .arr xs => 1 + asize xs
  | .str _ => 1
  | .num _ => 1
  | .bool _ => 1
  | .null => 1

def asize : List Json → ℕ
  | [] => 0
  | x :: xs => 1 + jsize x + asize xs

def msize : List (List Char × Json) → ℕ
  | [] => 0
  | (_, v) :: fs => 1 + jsize v + msize fs
end

/-- `JSON.parse` on a whole text: one value, then nothing but whitespace. -/
def jsonParseFull (cs : List Char) : Option Json :=
  match parseValue (cs.length + 1) cs with
  | some (v, rest) => if rest.all isWsChar then some v else none
  | none => none

/-- Does the list start with three backticks? -/
def startsTriple (cs : List Char) : Bool := cs.take 3 = ['`', '`', '`']

/-- Does the list start with a triple backtick followed by `json` in any
case (the `/```json/gi` pattern)? -/
def startsJsonTag (cs : List Char) : Bool :=
  startsTriple cs && ((cs.drop 3).take 4).map Char.toLower = ['j', 's', 'o', 'n']

/-- Left-to-right non-overlapping removal of `/```json/gi` matches, with
structural fuel for kernel reduction. -/
def removeJsonTagAux : ℕ → List Char → List Char
  | 0, cs => cs
  | _ + 1, [] => []
  | f + 1, c :: cs =>
    if startsJsonTag (c :: cs) then removeJsonTagAux f (cs.drop 6)
    else c :: removeJsonTagAux f cs

def removeJsonTag (cs : List Char) : List Char := removeJsonTagAux cs.length cs

/-- Left-to-right non-overlapping removal of `/```/g` matches. -/
def removeTripleAux : ℕ → List Char → List Char
  | 0, cs => cs
  | _ + 1, [] => []
  | f + 1, c :: cs =>
    if startsTriple (c :: cs) then removeTripleAux f (cs.drop 2)
    else c :: removeTripleAux f cs

def removeTriple (cs : List Char) : List Char := removeTripleAux cs.length cs

/-- JS `String.trim` on the whitespace the theorems use. -/
def trimChars (cs : List Char) : List Char :=
  ((cs.dropWhile isWsChar).reverse.dropWhile isWsChar).reverse

/-- `raw.replace(/```json/gi,"").replace(/```/g,"").trim()`. -/
def stripRaw (cs : List Char) : List Char :=
  trimChars (removeTriple (removeJsonTag cs))

/-- The greedy `/\x7b[\s\S]*\x7d/` match: from the first `{` to the last `}`,
when the last `}` comes after the first `{`. -/
def braceSpan (cs : List Char) : Option (List Char) :=
  match cs.findIdx? (fun c => c = '{'), cs.reverse.findIdx? (fun c => c = '}') with
  | some i, some k =>
    let j := cs.length - 1 - k
    if i < j then some ((cs.drop i).take (j - i + 1)) else none
  | _, _ => none

/-- Outcome of the extraction chain: a parsed value, the `{raw}` wrap when no
brace span exists, or a thrown `JSON.parse` error on the extracted span. -/
inductive NormResult where
  | parsed (v : Json)
  | rawWrap
  | failed

/-- The shared extraction chain of both call sites: strip fences, trim, try a
direct parse, otherwise parse the greedy first-`{`-to-last-`}` span; no span
gives the `{raw}` wrap, and a span that fails to parse throws. -/
def normalize (cs : List Char) : NormResult :=
  let raw := stripRaw cs
  match jsonParseFull raw with
  | some v => .parsed v
  | none =>
    match braceSpan raw with
    | some span =>
      match jsonParseFull span with
      | some v => .parsed v
      | none => .failed
    | none => .rawWrap

/-! ## Handler pipelines (provider-failure ordering, assessSpeaking.js and
assessWriting.js) -/

/-- A persistent write the handlers can perform. -/
inductive WriteOp where
  | progressSet
  | historyAdd (etype : String)
deriving DecidableEq

/-- Outcome of the Gemini HTTP call in api/assessWriting.js: a network
failure (fetch throws → outer catch → 500), a non-ok status (explicit 502
return), or the raw candidate text. -/
inductive FetchOutcome where
  | netFail
  | badStatus
  | okRaw (raw : List Char)

/-- HTTP status, `ok` flag and the list of Firestore writes performed. -/
structure HandlerResult where
  status : ℕ
  ok : Bool
  writes : List WriteOp
deriving DecidableEq

/-- Straight-line embedding of the api/assessWriting.js handler after request
validation: the Gemini call (and its status check) happens before any
Firestore access; only when it succeeds is the response parsed and are the
progress merge-write and the history append performed.  A `normalize` result
of `failed` is the `JSON.parse` throw inside the extraction, which the outer
catch turns into a 500 before any write. -/
def writingPipeline (gem : FetchOutcome) : HandlerResult :=
  match gem with
  | .netFail => ⟨500, false, []⟩
  | .badStatus => ⟨502, false, []⟩
  | .okRaw raw =>
    match normalize raw with
    | .failed => ⟨500, false, []⟩
    | _ => ⟨200, true, [.progressSet, .historyAdd "writing"]⟩

/-- Straight-line embedding of the api/assessSpeaking.js handler after form
parsing: upload, transcription creation, polling to a terminal state and the
Gemini call all happen before any Firestore access; any failure among them is
thrown to the catch block (500) with no write.  `poll` is the terminal poll
outcome (`Except.error` = the `error` status, i.e. TranscriptionFailed). -/
def speakingPipeline (upload : Except String String) (create : Except String String)
    (poll : Except String String) (gem : Except String (List Char)) : HandlerResult :=
  match upload with
  | .error _ => ⟨500, false, []⟩
  | .ok _ =>
    match create with
    | .error _ => ⟨500, false, []⟩
    | .ok _ =>
      match poll with
      | .error _ => ⟨500, false, []⟩
      | .ok _ =>
        match gem with
        | .error _ => ⟨500, false, []⟩
        | .ok raw =>
          match normalize raw with
          | .failed => ⟨500, false, []⟩
          | _ => ⟨200, true, [.progressSet, .historyAdd "speaking"]⟩

/-! ## Theorems -/

/-- C1: `mapScoresToLevel` is a pure total function (it is a Lean function on
all of `SubScores`, so totality is by construction and no input can fail);
the composite is `0.4*vocab + 0.4*grammar + 0.2*cohesion`; the level is the
first match in the ascending inclusive threshold table; and the four boundary
cases land exactly as stated: overall 20 → A1, 20.01 → A2, 90 → C1,
90.01 → C2. -/
theorem mapScoresToLevel_spec (s : SubScores) :
    (mapScoresToLevel s).overall = 0.4 * s.vocab + 0.4 * s.grammar + 0.2 * s.cohesion ∧
    (mapScoresToLevel s).level =
      firstMatchLevel (0.4 * s.vocab + 0.4 * s.grammar + 0.2 * s.cohesion) ∧
    mapScoresToLevel ⟨20, 20, 20⟩ = ⟨"A1", 20⟩ ∧
    mapScoresToLevel ⟨20.01, 20.01, 20.01⟩ = ⟨"A2", 20.01⟩ ∧
    mapScoresToLevel ⟨90, 90, 90⟩ = ⟨"C1", 90⟩ ∧
    mapScoresToLevel ⟨90.01, 90.01, 90.01⟩ = ⟨"C2", 90.01⟩ := by
  refine ⟨rfl, ?_, by norm_num [mapScoresToLevel], by norm_num [mapScoresToLevel],
    by norm_num [mapScoresToLevel], by norm_num [mapScoresToLevel]⟩
  by_cases h1 : 0.4 * s.vocab + 0.4 * s.grammar + 0.2 * s.cohesion ≤ (20:ℚ)
  · simp [mapScoresToLevel, firstMatchLevel, levelThresholds, List.find?, h1]
  by_cases h2 : 0.4 * s.vocab + 0.4 * s.grammar + 0.2 * s.cohesion ≤ (35:ℚ)
  · simp [mapScoresToLevel, firstMatchLevel, levelThresholds, List.find?, h1, h2]
  by_cases h3 : 0.4 * s.vocab + 0.4 * s.grammar + 0.2 * s.cohesion ≤ (55:ℚ)
  · simp [mapScoresToLevel, firstMatchLevel, levelThresholds, List.find?, h1, h2, h3]
  by_cases h4 : 0.4 * s.vocab + 0.4 * s.grammar + 0.2 * s.cohesion ≤ (75:ℚ)
  · simp [mapScoresToLevel, firstMatchLevel, levelThresholds, List.find?, h1, h2, h3, h4]
  by_cases h5 : 0.4 * s.vocab + 0.4 * s.grammar + 0.2 * s.cohesion ≤ (90:ℚ)
  · simp [mapScoresToLevel, firstMatchLevel, levelThresholds, List.find?, h1, h2, h3, h4, h5]
  · simp [mapScoresToLevel, firstMatchLevel, levelThresholds, List.find?, h1, h2, h3, h4, h5]

/-- C2: the streak advance function (`computeNewStreak`) agrees with the
spec's state machine on every input: absent previous date → streak 1,
changed; same day → keep the streak (1 if it was 0), unchanged; exactly one
day before → +1, changed; any other gap, including future dates → reset to
1, changed. -/
theorem computeNewStreak_spec (today : ℤ) (prevISO : Option ℤ) (prevStreak : ℕ) :
    computeNewStreak today prevISO prevStreak = advanceSpec today prevISO prevStreak := by
  cases prevISO with
  | none => rfl
  | some prev =>
    by_cases h0 : today - prev = 0
    · have hp : prev = today := by omega
      subst hp
      simp only [computeNewStreak, advanceSpec, sub_self, if_pos rfl]
      rcases prevStreak with _ | n
      · rfl
      · simp [Nat.max_eq_left (by omega : 1 ≤ n + 1)]
    · have hp : ¬ prev = today := by omega
      by_cases h1 : today - prev = 1
      · have hy : prev = today - 1 := by omega
        simp [computeNewStreak, advanceSpec, h0, h1, hp, hy]
      · have hy : ¬ prev = today - 1 := by omega
        simp [computeNewStreak, advanceSpec, h0, h1, hp, hy]

/-- C10 counterexample: on a same-day repeat with a stored streak of 0, the
inline placement computation keeps 0 while `computeNewStreak` returns 1, so
the two implementations are not equivalent on every input pair. -/
theorem streak_impls_cx :
    inlineStreak 800 (some 800) 0 = 0 ∧
    (computeNewStreak 800 (some 800) 0).streak = 1 ∧
    inlineStreak 800 (some 800) 0 ≠ (computeNewStreak 800 (some 800) 0).streak := by
  refine ⟨rfl, rfl, by decide⟩

/-- C10 amended: the two streak implementations agree on every pair except a
same-day repeat whose stored streak is 0 (there the inline code keeps 0 and
`computeNewStreak` returns 1). -/
theorem streak_impls_agree (today : ℤ) (prevISO : Option ℤ) (prevStreak : ℕ)
    (h : prevStreak ≠ 0 ∨ prevISO ≠ some today) :
    inlineStreak today prevISO prevStreak =
      (computeNewStreak today prevISO prevStreak).streak := by
  cases prevISO with
  | none => rfl
  | some prev =>
    by_cases h0 : prev = today
    · subst h0
      have hps : prevStreak ≠ 0 := by
        rcases h with h | h
        · exact h
        · exact absurd rfl h
      simp [inlineStreak, computeNewStreak, hps]
    · have hne : some prev ≠ some today := by simpa using h0
      have hd0 : ¬ today - prev = 0 := by omega
      by_cases h1 : today - prev = 1
      · simp [inlineStreak, computeNewStreak, hne, h1, hd0]
      · simp [inlineStreak, computeNewStreak, hne, h1, hd0]

theorem streak_impls_agree_wit :
    inlineStreak 5 (some 4) 5 = (computeNewStreak 5 (some 4) 5).streak :=
  streak_impls_agree 5 (some 4) 5 (Or.inl (by decide))

/-- The correct-count accumulated by the grading fold, for any starting
accumulator. -/
theorem gradeStep_foldl_correct (answers : List AnswerItem) :
    ∀ (l : List (ℕ × Question)) (acc : ℕ × List GradeDetail),
      (l.foldl (gradeStep answers) acc).1 =
        acc.1 + l.countP (fun iq => iq.2.qtype == "mcq" && isCorrectSel answers iq.1 iq.2) := by
  intro l
  induction l with
  | nil => intro acc; simp
  | cons x xs ih =>
    intro acc
    rw [List.foldl_cons, ih, List.countP_cons]
    simp only [gradeStep]
    by_cases hm : x.2.qtype == "mcq"
    · by_cases hc : isCorrectSel answers x.1 x.2 <;> (simp [hm, hc]; try omega)
    · simp [hm]

/-- Membership-style form of the correctness predicate is bounded by being an
mcq question, so the correct count never exceeds the mcq count. -/
theorem grade_correct_le_total (qs : List Question) (answers : List AnswerItem) :
    (gradeMCQs qs answers).correct ≤ (gradeMCQs qs answers).total := by
  simp only [gradeMCQs, gradeStep_foldl_correct, Nat.zero_add]
  have h1 : qs.enum.countP
      (fun iq => iq.2.qtype == "mcq" && isCorrectSel answers iq.1 iq.2) ≤
      qs.enum.countP (fun iq => iq.2.qtype == "mcq") := by
    apply List.countP_mono_left
    intro a _ h
    exact (Bool.and_elim_left h)
  have h2 : qs.enum.countP (fun iq : ℕ × Question => iq.2.qtype == "mcq") =
      (qs.filter (fun q => q.qtype == "mcq")).length := by
    rw [← List.countP_eq_length_filter]
    conv_rhs => rw [← List.enum_map_snd qs]
    rw [List.countP_map]
    rfl
  omega

/-- C4: only mcq questions count toward `total`; the `correct` count is
exactly the number of positions holding an mcq question whose supplied
selection strictly equals the server-held answer (a missing selection is
incorrect, not skipped); the percent is `round(correct / max(total,1) * 100)`;
and with no mcq questions the percent is 0 rather than a failure. -/
theorem gradeMCQs_spec (qs : List Question) (answers : List AnswerItem) :
    (gradeMCQs qs answers).total = qs.countP (fun q => q.qtype == "mcq") ∧
    (gradeMCQs qs answers).correct =
      qs.enum.countP (fun iq => iq.2.qtype == "mcq" && isCorrectSel answers iq.1 iq.2) ∧
    mcqPercent (gradeMCQs qs answers) =
      jsRound (((gradeMCQs qs answers).correct : ℚ) /
        (max ((gradeMCQs qs answers).total : ℚ) 1) * 100) ∧
    (qs.countP (fun q => q.qtype == "mcq") = 0 → mcqPercent (gradeMCQs qs answers) = 0) := by
  refine ⟨?_, ?_, rfl, ?_⟩
  · simp [gradeMCQs, List.countP_eq_length_filter]
  · simp [gradeMCQs, gradeStep_foldl_correct]
  · intro h0
    have htot : (gradeMCQs qs answers).total = 0 := by
      simp [gradeMCQs, List.countP_eq_length_filter] at h0 ⊢
      exact h0
    have hcor : (gradeMCQs qs answers).correct = 0 := by
      have := grade_correct_le_total qs answers
      omega
    simp [mcqPercent, htot, hcor, jsRound]
    norm_num

theorem gradeMCQs_spec_wit :
    mcqPercent (gradeMCQs [⟨"q6", "writing", none⟩] []) = 0 :=
  (gradeMCQs_spec [⟨"q6", "writing", none⟩] []).2.2.2 (by decide)

/-- The grading total depends only on the questions; for the fixed server
question list it is 10. -/
theorem gradeMCQs_QUESTIONS_total (answers : List AnswerItem) :
    (gradeMCQs QUESTIONS answers).total = 10 := by
  simp [gradeMCQs, QUESTIONS, List.filter]

/-- C5: on the placement path, when the model evaluation failed (network
error, non-ok status or unparsable output — all of which leave
`geminiParsed = null`), the result is still produced: all three sub-scores
fall back to the multiple-choice percent and the confidence equals the exact
MCQ accuracy fraction `correct/total` (with the fixed 10-question list,
`round(100·c/10)/100 = c/10` exactly); and any score or confidence the model
does supply overrides the MCQ-derived value. -/
theorem placement_degradation (answers : List AnswerItem) (g : GeminiParsed) (v c : ℚ) :
    (placementResult none (gradeMCQs QUESTIONS answers)).scores =
      ⟨(mcqPercent (gradeMCQs QUESTIONS answers) : ℚ),
       (mcqPercent (gradeMCQs QUESTIONS answers) : ℚ),
       (mcqPercent (gradeMCQs QUESTIONS answers) : ℚ)⟩ ∧
    (placementResult none (gradeMCQs QUESTIONS answers)).confidence =
      ((gradeMCQs QUESTIONS answers).correct : ℚ) /
        ((gradeMCQs QUESTIONS answers).total : ℚ) ∧
    (g.scores.bind GScores.vocab = some v →
      (placementResult (some g) (gradeMCQs QUESTIONS answers)).scores.vocab = v) ∧
    (g.scores.bind GScores.grammar = some v →
      (placementResult (some g) (gradeMCQs QUESTIONS answers)).scores.grammar = v) ∧
    (g.scores.bind GScores.cohesion = some v →
      (placementResult (some g) (gradeMCQs QUESTIONS answers)).scores.cohesion = v) ∧
    (g.confidence = some c →
      (placementResult (some g) (gradeMCQs QUESTIONS answers)).confidence = c) := by
  refine ⟨rfl, ?_, ?_, ?_, ?_, ?_⟩
  · have htot := gradeMCQs_QUESTIONS_total answers
    have hle := grade_correct_le_total QUESTIONS answers
    set cnum := (gradeMCQs QUESTIONS answers).correct with hc
    simp only [placementResult, finalConfidenceVal, Option.none_bind, Option.getD_none,
      mcqPercent, htot]
    have harg : ((cnum : ℚ)) / (max ((10:ℕ) : ℚ) 1) * 100 = ((10 * cnum : ℕ) : ℚ) := by
      push_cast
      rw [max_eq_left (by norm_num)]
      ring
    rw [harg]
    have hfloor : jsRound (((10 * cnum : ℕ) : ℚ)) = (10 * cnum : ℕ) := by
      unfold jsRound
      rw [add_comm, Int.floor_add_nat]
      norm_num
    rw [hfloor]
    push_cast
    ring
  · intro h; simp [placementResult, mergedScores, h]
  · intro h; simp [placementResult, mergedScores, h]
  · intro h; simp [placementResult, mergedScores, h]
  · intro h; simp [placementResult, finalConfidenceVal, h]

theorem placement_degradation_wit :
    (placementResult (some ⟨some ⟨some 50, none, none⟩, some 0.9, none⟩)
        (gradeMCQs QUESTIONS [])).scores.vocab = 50 ∧
    (placementResult (some ⟨some ⟨some 50, none, none⟩, some 0.9, none⟩)
        (gradeMCQs QUESTIONS [])).confidence = 0.9 := by
  have h := placement_degradation [] ⟨some ⟨some 50, none, none⟩, some 0.9, none⟩ 50 0.9
  exact ⟨h.2.2.1 rfl, h.2.2.2.2.2 rfl⟩

/-- Membership in a single badge update. -/
theorem mem_addBadge (b n : String) (t s : ℕ) (a : List String) :
    b ∈ addBadge n t s a ↔ b ∈ a ∨ (b = n ∧ t ≤ s) := by
  unfold addBadge
  split_ifs with h
  · simp only [List.mem_append, List.mem_singleton]
    constructor
    · rintro (hb | hb)
      · exact Or.inl hb
      · exact Or.inr ⟨hb, h.1⟩
    · rintro (hb | hb)
      · exact Or.inl hb
      · exact Or.inr hb.1
  · constructor
    · exact fun hb => Or.inl hb
    · rintro (hb | ⟨hb, ht⟩)
      · exact hb
      · rcases not_and_or.mp h with h | h
        · exact absurd ht h
        · rw [hb]; exact not_not.mp h

/-- A badge update whose badge is already present (whenever its threshold is
met) changes nothing. -/
theorem addBadge_absorbed (n : String) (t s : ℕ) (a : List String)
    (h : t ≤ s → n ∈ a) : addBadge n t s a = a := by
  unfold addBadge
  split_ifs with hc
  · exact absurd (h hc.1) hc.2
  · rfl

/-- A badge update preserves distinctness. -/
theorem addBadge_nodup (n : String) (t s : ℕ) (a : List String)
    (h : a.Nodup) : (addBadge n t s a).Nodup := by
  unfold addBadge
  split_ifs with hc
  · simp [List.nodup_append, h, hc.2]
  · exact h

/-- C6 counterexample: the writing path advances the streak (here from 2 to
3) without evaluating any badge threshold — the avatars field is not part of
its merge-write, so "starter" is not added at streak 3.  Badge thresholds are
therefore not evaluated on every streak advance. -/
theorem badge_every_advance_cx :
    ((writingPersist 100 ⟨none, none, some 99, some 2, some []⟩
        ⟨some "B1", some 0.5, none⟩).1.streak = some 3) ∧
    ((writingPersist 100 ⟨none, none, some 99, some 2, some []⟩
        ⟨some "B1", some 0.5, none⟩).1.avatars = some []) ∧
    "starter" ∉ ((writingPersist 100 ⟨none, none, some 99, some 2, some []⟩
        ⟨some "B1", some 0.5, none⟩).1.avatars.getD []) :=
  ⟨rfl, rfl, by decide⟩

/-- C6 amended: on the placement path the badge thresholds are evaluated on
every advance regardless of whether the streak changed; each badge is added
at most once (an already-present badge leaves the list unchanged, the update
is idempotent and preserves distinctness); badges are never removed.  The
writing (and speaking) paths do not evaluate badges at all: their merge-write
omits the avatars field, preserving it unchanged. -/
theorem badge_invariants (s : ℕ) (a : List String) (b : String) (today : ℤ)
    (u : UserDoc) (r : PlacementResult) (p : WParsed) :
    (b ∈ a → b ∈ updateAvatars s a) ∧
    (b ∈ updateAvatars s a ↔ b ∈ a ∨ (b = "starter" ∧ 3 ≤ s) ∨ (b = "bronze" ∧ 7 ≤ s) ∨
      (b = "silver" ∧ 14 ≤ s) ∨ (b = "gold" ∧ 30 ≤ s)) ∧
    updateAvatars s (updateAvatars s a) = updateAvatars s a ∧
    (a.Nodup → (updateAvatars s a).Nodup) ∧
    (placementPersist today u r).1.avatars =
      some (updateAvatars (inlineStreak today u.lastAssessmentDateISO (u.streak.getD 0))
        (u.avatars.getD [])) ∧
    (writingPersist today u p).1.avatars = u.avatars := by
  have hmem : ∀ c : String, c ∈ updateAvatars s a ↔ c ∈ a ∨ (c = "starter" ∧ 3 ≤ s) ∨
      (c = "bronze" ∧ 7 ≤ s) ∨ (c = "silver" ∧ 14 ≤ s) ∨ (c = "gold" ∧ 30 ≤ s) := by
    intro c
    unfold updateAvatars
    rw [mem_addBadge, mem_addBadge, mem_addBadge, mem_addBadge]
    tauto
  refine ⟨fun hb => (hmem b).mpr (Or.inl hb), hmem b, ?_, ?_, rfl, rfl⟩
  · unfold updateAvatars
    rw [addBadge_absorbed "starter" 3 s _ ?hst, addBadge_absorbed "bronze" 7 s _ ?hbr,
      addBadge_absorbed "silver" 14 s _ ?hsi, addBadge_absorbed "gold" 30 s _ ?hgo]
    case hst =>
      intro h3
      exact (hmem "starter").mpr (Or.inr (Or.inl ⟨rfl, h3⟩))
    case hbr =>
      intro h7
      exact (hmem "bronze").mpr (Or.inr (Or.inr (Or.inl ⟨rfl, h7⟩)))
    case hsi =>
      intro h14
      exact (hmem "silver").mpr (Or.inr (Or.inr (Or.inr (Or.inl ⟨rfl, h14⟩))))
    case hgo =>
      intro h30
      exact (hmem "gold").mpr (Or.inr (Or.inr (Or.inr (Or.inr ⟨rfl, h30⟩))))
  · intro hnd
    exact addBadge_nodup _ _ _ _ (addBadge_nodup _ _ _ _
      (addBadge_nodup _ _ _ _ (addBadge_nodup _ _ _ _ hnd)))

theorem badge_invariants_wit :
    "starter" ∈ updateAvatars 3 ["starter"] :=
  (badge_invariants 3 ["starter"] "starter" 0 emptyDoc ⟨"A1", 0, ⟨0, 0, 0⟩, ""⟩
    ⟨none, none, none⟩).1 (by decide)

/-- C7 counterexample: for the model scores vocab 72, grammar 68, cohesion
70 the LevelMapper composite is 70.0 (not 70.4) and maps to "B2" (not "B1");
moreover the writing path stores the model-reported level, not a LevelMapper
result — when the model output carries those scores but no level field, the
stored level is "Unknown", not "B1". -/
theorem writing_scenario_cx :
    (mapScoresToLevel ⟨72, 68, 70⟩).overall = 70 ∧
    (mapScoresToLevel ⟨72, 68, 70⟩).level = "B2" ∧
    (mapScoresToLevel ⟨72, 68, 70⟩).overall ≠ 70.4 ∧
    (mapScoresToLevel ⟨72, 68, 70⟩).level ≠ "B1" ∧
    (writingPersist 0 emptyDoc ⟨none, some 0.76, some ⟨some 72, some 68, some 70⟩⟩).1.level =
      some "Unknown" := by
  have hlev : (mapScoresToLevel ⟨72, 68, 70⟩).level = "B2" := by
    norm_num [mapScoresToLevel]
  refine ⟨by norm_num [mapScoresToLevel], hlev,
    by norm_num [mapScoresToLevel], by rw [hlev]; decide, rfl⟩

/-- C7 amended: for a first-time user whose writing sample the model scores
with confidence 0.76 (and any reported level), the stored progress has
streak 1, level equal to the model-reported level (or "Unknown" when the
model omitted it — the writing path never invokes LevelMapper), confidence
0.76, no avatars field written, and exactly one new history entry of type
"writing". -/
theorem writing_scenario_amended (lvl : Option String) (today : ℤ) :
    (writingPersist today emptyDoc ⟨lvl, some 0.76, some ⟨some 72, some 68, some 70⟩⟩).1.streak =
      some 1 ∧
    (writingPersist today emptyDoc ⟨lvl, some 0.76, some ⟨some 72, some 68, some 70⟩⟩).1.level =
      some (jsOrStr lvl "Unknown") ∧
    (writingPersist today emptyDoc
        ⟨lvl, some 0.76, some ⟨some 72, some 68, some 70⟩⟩).1.levelConfidence = some 0.76 ∧
    (writingPersist today emptyDoc ⟨lvl, some 0.76, some ⟨some 72, some 68, some 70⟩⟩).1.avatars =
      none ∧
    (writingPersist today emptyDoc ⟨lvl, some 0.76, some ⟨some 72, some 68, some 70⟩⟩).2 =
      [⟨"writing"⟩] ∧
    (writingPersist today emptyDoc
        ⟨lvl, some 0.76, some ⟨some 72, some 68, some 70⟩⟩).2.length = 1 := by
  refine ⟨rfl, rfl, rfl, rfl, rfl, rfl⟩

/-- The poll loop run from check index `k`: all-pending prefixes advance the
loop one check (and one 3-second sleep) at a time. -/
theorem pollAux_completed (responses : ℕ → TranscriptStatus) (t : String) :
    ∀ (n k fuel : ℕ), (∀ j, j < n → (responses (k + j)).isPending = true) →
      responses (k + n) = .completed t → n < fuel →
      pollAux responses k fuel = some (3000 * (k + n + 1), .ok t) := by
  intro n
  induction n with
  | zero =>
    intro k fuel _ hterm hfuel
    rcases fuel with _ | f
    · omega
    · simp only [pollAux]
      rw [show k + 0 = k from rfl] at hterm
      rw [hterm]
  | succ m ih =>
    intro k fuel hpend hterm hfuel
    rcases fuel with _ | f
    · omega
    · have h0 : (responses k).isPending = true := by
        have := hpend 0 (by omega)
        simpa using this
      simp only [pollAux]
      rcases hr : responses k with t' | d' | s'
      · rw [hr] at h0; simp [TranscriptStatus.isPending] at h0
      · rw [hr] at h0; simp [TranscriptStatus.isPending] at h0
      · have hres := ih (k + 1) f
          (fun j hj => by
            have := hpend (j + 1) (by omega)
            rw [show k + (j + 1) = k + 1 + j by omega] at this
            exact this)
          (by rw [show k + 1 + m = k + (m + 1) by omega]; exact hterm)
          (by omega)
        have harith : k + 1 + m + 1 = k + (m + 1) + 1 := by omega
        rw [harith] at hres
        exact hres

theorem pollAux_errored (responses : ℕ → TranscriptStatus) (d : Option String) :
    ∀ (n k fuel : ℕ), (∀ j, j < n → (responses (k + j)).isPending = true) →
      responses (k + n) = .errored d → n < fuel →
      pollAux responses k fuel = some (3000 * (k + n + 1),
        .error ("Transcription error: " ++ d.getD "unknown")) := by
  intro n
  induction n with
  | zero =>
    intro k fuel _ hterm hfuel
    rcases fuel with _ | f
    · omega
    · simp only [pollAux]
      rw [show k + 0 = k from rfl] at hterm
      rw [hterm]
  | succ m ih =>
    intro k fuel hpend hterm hfuel
    rcases fuel with _ | f
    · omega
    · have h0 : (responses k).isPending = true := by
        have := hpend 0 (by omega)
        simpa using this
      simp only [pollAux]
      rcases hr : responses k with t' | d' | s'
      · rw [hr] at h0; simp [TranscriptStatus.isPending] at h0
      · rw [hr] at h0; simp [TranscriptStatus.isPending] at h0
      · have hres := ih (k + 1) f
          (fun j hj => by
            have := hpend (j + 1) (by omega)
            rw [show k + (j + 1) = k + 1 + j by omega] at this
            exact this)
          (by rw [show k + 1 + m = k + (m + 1) by omega]; exact hterm)
          (by omega)
        have harith : k + 1 + m + 1 = k + (m + 1) + 1 := by omega
        rw [harith] at hres
        exact hres

theorem pollAux_pending (responses : ℕ → TranscriptStatus) :
    ∀ (fuel k : ℕ), (∀ j, j < fuel → (responses (k + j)).isPending = true) →
      pollAux responses k fuel = none := by
  intro fuel
  induction fuel with
  | zero => intro k _; rfl
  | succ f ih =>
    intro k hpend
    have h0 : (responses k).isPending = true := by
      have := hpend 0 (by omega)
      simpa using this
    simp only [pollAux]
    rcases hr : responses k with t' | d' | s'
    · rw [hr] at h0; simp [TranscriptStatus.isPending] at h0
    · rw [hr] at h0; simp [TranscriptStatus.isPending] at h0
    · exact ih (k + 1) (fun j hj => by
        have := hpend (j + 1) (by omega)
        rw [show k + (j + 1) = k + 1 + j by omega] at this
        exact this)

/-- C8: the poll loop sleeps a fixed 3000 ms before every status check; when
the first terminal status appears at check `n` (any fuel bound larger than
`n` gives the same answer, so no attempt bound is built in), a `completed`
status returns exactly the transcript text after `3000·(n+1)` ms of sleeping,
an `error` status fails with the TranscriptionFailed message carrying the
provider's detail (or "unknown"), and while every status seen is neither of
the two the loop is still running (`none`) after any number of checks. -/
theorem pollTranscript_spec (responses : ℕ → TranscriptStatus) (n fuel : ℕ)
    (t : String) (d : Option String)
    (h : ∀ j, j < n → (responses j).isPending = true) :
    (responses n = .completed t → n < fuel →
      pollTranscript responses fuel = some (3000 * (n + 1), .ok t)) ∧
    (responses n = .errored d → n < fuel →
      pollTranscript responses fuel = some (3000 * (n + 1),
        .error ("Transcription error: " ++ d.getD "unknown"))) ∧
    ((∀ j, j < fuel → (responses j).isPending = true) →
      pollTranscript responses fuel = none) := by
  refine ⟨?_, ?_, ?_⟩
  · intro hterm hfuel
    have := pollAux_completed responses t n 0 fuel (by simpa using h) (by simpa using hterm)
      hfuel
    simpa [pollTranscript] using this
  · intro hterm hfuel
    have := pollAux_errored responses d n 0 fuel (by simpa using h) (by simpa using hterm)
      hfuel
    simpa [pollTranscript] using this
  · intro hpend
    exact pollAux_pending responses fuel 0 (by simpa using hpend)

theorem pollTranscript_spec_wit :
    pollTranscript (fun k => if k = 0 then .pending "queued" else .completed "hello") 5 =
      some (6000, .ok "hello") := by
  have h := pollTranscript_spec
    (fun k => if k = 0 then .pending "queued" else .completed "hello") 1 5 "hello" none
    (by
      intro j hj
      have hj0 : j = 0 := by omega
      subst hj0
      rfl)
  have := h.1 rfl (by omega)
  simpa using this

/-- C9: whenever the transcription provider (upload, job creation, or an
`error` terminal poll status) or the generative model's HTTP call fails, the
request is aborted with an error response and the list of Firestore writes is
empty — no progress update and no history entry; the writing path returns a
502 on a non-ok model status and a 500 on a network failure, the speaking
path a 500, all before touching persistent state. -/
theorem atomicity_on_failure (upload create poll : Except String String)
    (gem : Except String (List Char)) (e : String) :
    speakingPipeline (.error e) create poll gem = ⟨500, false, []⟩ ∧
    speakingPipeline upload (.error e) poll gem = ⟨500, false, []⟩ ∧
    speakingPipeline upload create (.error e) gem = ⟨500, false, []⟩ ∧
    speakingPipeline upload create poll (.error e) = ⟨500, false, []⟩ ∧
    writingPipeline .netFail = ⟨500, false, []⟩ ∧
    writingPipeline .badStatus = ⟨502, false, []⟩ := by
  refine ⟨rfl, ?_, ?_, ?_, rfl, rfl⟩
  · cases upload <;> rfl
  · cases upload <;> cases create <;> rfl
  · cases upload <;> cases create <;> cases poll <;> rfl

/-! ### List and character helper lemmas for the normalizer proofs -/

theorem head_dropWhile_false (p : Char → Bool) (l : List Char) (c : Char)
    (h : (l.dropWhile p).head? = some c) : p c = false := by
  induction l with
  | nil => simp at h
  | cons x xs ih =>
    rw [List.dropWhile_cons] at h
    by_cases hx : p x
    · rw [if_pos hx] at h
      exact ih h
    · rw [if_neg hx] at h
      simp at h
      rw [← h]
      simpa using hx

theorem takeWhile_append_all (p : Char → Bool) (a t : List Char)
    (ha : ∀ c ∈ a, p c = true) (ht : ∀ c, t.head? = some c → p c = false) :
    (a ++ t).takeWhile p = a ∧ (a ++ t).dropWhile p = t := by
  induction a with
  | nil =>
    cases t with
    | nil => exact ⟨rfl, rfl⟩
    | cons x xs =>
      have hx := ht x rfl
      simp [List.takeWhile_cons, List.dropWhile_cons, hx]
  | cons x xs ih =>
    have hx := ha x (List.mem_cons_self x xs)
    have hrest := ih (fun c hc => ha c (List.mem_cons_of_mem x hc))
    simp only [List.cons_append, List.takeWhile_cons, List.dropWhile_cons, hx]
    exact ⟨by simp [hrest.1], by simp [hrest.2]⟩

theorem mem_dropWhile_of_mem (p : Char → Bool) (l : List Char) (c : Char)
    (hc : c ∈ l) (hp : p c = false) : c ∈ l.dropWhile p := by
  induction l with
  | nil => simp at hc
  | cons x xs ih =>
    rw [List.dropWhile_cons]
    by_cases hx : p x
    · rw [if_pos hx]
      rcases List.mem_cons.mp hc with hc | hc
      · subst hc; rw [hp] at hx; simp at hx
      · exact ih hc
    · rw [if_neg hx]
      exact hc

theorem all_false_of_mem (p : Char → Bool) (l : List Char) (c : Char)
    (hc : c ∈ l) (hp : p c = false) : l.all p = false := by
  by_contra h
  have := List.all_eq_true.mp (Bool.not_eq_false _ ▸ h) c hc
  rw [hp] at this
  exact Bool.false_ne_true this

theorem skipWs_cons_not_ws (c : Char) (cs : List Char) (h : isWsChar c = false) :
    skipWs (c :: cs) = c :: cs := by
  simp [skipWs, List.dropWhile_cons, h]

theorem findIdx_append_all_false (p : Char → Bool) (a b : List Char)
    (h : ∀ c ∈ a, p c = false) :
    (a ++ b).findIdx? p = (b.findIdx? p).map (· + a.length) := by
  induction a with
  | nil =>
    simp only [List.nil_append, List.length_nil]
    cases hb : b.findIdx? p <;> simp [hb]
  | cons x xs ih =>
    have hx := h x (List.mem_cons_self x xs)
    rw [List.cons_append, List.findIdx?_cons, hx]
    simp only [Bool.false_eq_true, if_false]
    rw [List.findIdx?_succ, ih (fun c hc => h c (List.mem_cons_of_mem x hc))]
    cases hb : b.findIdx? p with
    | none => simp
    | some v =>
      simp only [Option.map_some', List.length_cons]
      exact congrArg some (by omega)

/-- The facts needed about a decimal digit character. -/
theorem dChar_facts (d : ℕ) (hd : d < 10) :
    (dChar d).isDigit = true ∧ isWsChar (dChar d) = false ∧ dChar d ≠ '{' ∧
    dChar d ≠ '[' ∧ dChar d ≠ '"' ∧ dChar d ≠ ']' ∧ dChar d ≠ '}' ∧
    dChar d ≠ '-' ∧ dChar d ≠ 't' ∧ dChar d ≠ 'f' ∧ dChar d ≠ 'n' ∧
    (dChar d).toNat = 48 + d := by
  interval_cases d <;> exact (by decide)

/-! ### Decimal serialisation of naturals -/

theorem natToCharsAux_spec :
    ∀ (f n : ℕ) (acc : List Char), 0 < n → n < 10 ^ f →
      natToCharsAux f n acc = ((Nat.digits 10 n).reverse.map dChar) ++ acc := by
  intro f
  induction f with
  | zero =>
    intro n acc hn hf
    simp at hf
    omega
  | succ f ih =>
    intro n acc hn hf
    by_cases h10 : n < 10
    · have hd : Nat.digits 10 n = [n] := by
        rw [Nat.digits_def' (by norm_num) hn]
        rw [Nat.mod_eq_of_lt h10, Nat.div_eq_of_lt h10]
        simp
      simp [natToCharsAux, h10, hd]
    · have hdiv_pos : 0 < n / 10 := Nat.div_pos (by omega) (by norm_num)
      have hdiv_lt : n / 10 < 10 ^ f := by
        rw [Nat.div_lt_iff_lt_mul (by norm_num)]
        calc n < 10 ^ (f + 1) := hf
        _ = 10 ^ f * 10 := by ring
      have hd : Nat.digits 10 n = n % 10 :: Nat.digits 10 (n / 10) :=
        Nat.digits_def' (by norm_num) hn
      simp only [natToCharsAux, if_neg h10]
      rw [ih (n / 10) (dChar (n % 10) :: acc) hdiv_pos hdiv_lt, hd]
      simp

theorem digitsVal_rev_map (ds : List ℕ) (h : ∀ d ∈ ds, d < 10) :
    digitsVal (ds.reverse.map dChar) = Nat.ofDigits 10 ds := by
  induction ds with
  | nil => simp [digitsVal, Nat.ofDigits_nil]
  | cons d ds ih =>
    have hd := h d (List.mem_cons_self d ds)
    have hds := ih (fun x hx => h x (List.mem_cons_of_mem d hx))
    simp only [List.reverse_cons, List.map_append, List.map_cons, List.map_nil]
    simp only [digitsVal, List.foldl_append, List.foldl_cons, List.foldl_nil]
    rw [Nat.ofDigits_cons]
    have hv : (dChar d).toNat = 48 + d := (dChar_facts d hd).2.2.2.2.2.2.2.2.2.2.2
    rw [hv]
    simp only [digitsVal] at hds
    rw [hds]
    omega

theorem digitsVal_natToChars (n : ℕ) : digitsVal (natToChars n) = n := by
  rcases Nat.eq_zero_or_pos n with hn | hn
  · subst hn; decide
  · have hpow : n < 10 ^ (n + 1) := by
      calc n < 10 ^ n := Nat.lt_pow_self (by norm_num) n
      _ ≤ 10 ^ (n + 1) := Nat.pow_le_pow_right (by norm_num) (by omega)
    rw [natToChars, natToCharsAux_spec (n + 1) n [] hn hpow, List.append_nil]
    rw [digitsVal_rev_map _ (fun d hd => Nat.digits_lt_base (by norm_num) hd)]
    exact Nat.ofDigits_digits 10 n

theorem natToChars_all_digits (n : ℕ) : ∀ c ∈ natToChars n, c.isDigit = true := by
  rcases Nat.eq_zero_or_pos n with hn | hn
  · subst hn; decide
  · have hpow : n < 10 ^ (n + 1) := by
      calc n < 10 ^ n := Nat.lt_pow_self (by norm_num) n
      _ ≤ 10 ^ (n + 1) := Nat.pow_le_pow_right (by norm_num) (by omega)
    rw [natToChars, natToCharsAux_spec (n + 1) n [] hn hpow, List.append_nil]
    intro c hc
    rcases List.mem_map.mp hc with ⟨d, hd, hdc⟩
    have hd10 : d < 10 :=
      Nat.digits_lt_base (by norm_num) (List.mem_reverse.mp hd)
    rw [← hdc]
    exact (dChar_facts d hd10).1

theorem natToChars_shape (n : ℕ) :
    ∃ d t, d < 10 ∧ natToChars n = dChar d :: t := by
  rcases Nat.eq_zero_or_pos n with hn | hn
  · exact ⟨0, [], by norm_num, by subst hn; rfl⟩
  · have hpow : n < 10 ^ (n + 1) := by
      calc n < 10 ^ n := Nat.lt_pow_self (by norm_num) n
      _ ≤ 10 ^ (n + 1) := Nat.pow_le_pow_right (by norm_num) (by omega)
    rw [natToChars, natToCharsAux_spec (n + 1) n [] hn hpow, List.append_nil]
    have hne : Nat.digits 10 n ≠ [] := Nat.digits_ne_nil_iff_ne_zero.mpr (by omega)
    rcases hrev : (Nat.digits 10 n).reverse with _ | ⟨d, ds⟩
    · exact absurd (by simpa using hrev) hne
    · have hd10 : d < 10 := by
        have : d ∈ (Nat.digits 10 n).reverse := by rw [hrev]; exact List.mem_cons_self d ds
        exact Nat.digits_lt_base (by norm_num) (List.mem_reverse.mp this)
      exact ⟨d, ds.map dChar, hd10, by simp⟩

theorem parseNatFrom_ser (n : ℕ) (rest : List Char)
    (hrest : ∀ c, rest.head? = some c → c.isDigit = false) :
    parseNatFrom (natToChars n ++ rest) = some (n, rest) := by
  have hall := natToChars_all_digits n
  have htd := takeWhile_append_all Char.isDigit (natToChars n) rest hall hrest
  have hne : natToChars n ≠ [] := by
    rcases natToChars_shape n with ⟨d, t, _, hshape⟩
    rw [hshape]
    exact List.cons_ne_nil _ _
  simp only [parseNatFrom]
  rw [htd.1, htd.2, if_neg hne, digitsVal_natToChars]

theorem parseNumFrom_ser (m : ℤ) (rest : List Char)
    (hrest : ∀ c, rest.head? = some c → c.isDigit = false) :
    parseNumFrom (intToChars m ++ rest) = some (Json.num m, rest) := by
  unfold intToChars
  split_ifs with hm
  · rw [List.cons_append]
    simp only [parseNumFrom, if_pos rfl]
    rw [parseNatFrom_ser m.natAbs rest hrest]
    have habs : -((m.natAbs : ℤ)) = m := by omega
    simp only [Option.map_some']
    rw [habs]
    simp
  · rcases natToChars_shape m.toNat with ⟨d, t, hd, hshape⟩
    rw [hshape, List.cons_append]
    simp only [parseNumFrom]
    rw [if_neg (dChar_facts d hd).2.2.2.2.2.2.2.1]
    rw [← List.cons_append, ← hshape]
    rw [parseNatFrom_ser m.toNat rest hrest]
    have htn : ((m.toNat : ℤ)) = m := by omega
    simp [htn]

theorem parseStrBody_ser (k rest : List Char) (hk : k.all okStrChar = true) :
    parseStrBody (k ++ '"' :: rest) = some (k, rest) := by
  have hka : ∀ c ∈ k, (c != '"') = true := by
    intro c hc
    have hok := List.all_eq_true.mp hk c hc
    simp only [okStrChar, Bool.and_eq_true, decide_eq_true_eq] at hok
    simp [bne_iff_ne]
    exact hok.1.1.2
  have ht : ∀ c, ('"' :: rest).head? = some c → (c != '"') = false := by
    intro c hc
    simp at hc
    rw [← hc]
    simp
  have htd := takeWhile_append_all (fun c => c != '"') k ('"' :: rest) hka ht
  simp only [parseStrBody]
  rw [htd.1, htd.2]
  rfl

theorem intToChars_shape (m : ℤ) :
    ∃ c t, intToChars m = c :: t ∧ isWsChar c = false ∧ ¬c = '{' ∧ ¬c = '[' ∧
      ¬c = '"' ∧ ¬c = 't' ∧ ¬c = 'f' ∧ ¬c = 'n' ∧ ¬c = ']' ∧ ¬c = '}' := by
  unfold intToChars
  split_ifs with hm
  · exact ⟨'-', natToChars m.natAbs, rfl, by decide⟩
  · rcases natToChars_shape m.toNat with ⟨d, t, hd, hs⟩
    have hf := dChar_facts d hd
    exact ⟨dChar d, t, hs, hf.2.1, hf.2.2.1, hf.2.2.2.1, hf.2.2.2.2.1,
      hf.2.2.2.2.2.2.2.2.1, hf.2.2.2.2.2.2.2.2.2.1, hf.2.2.2.2.2.2.2.2.2.2.1,
      hf.2.2.2.2.2.1, hf.2.2.2.2.2.2.1⟩

theorem head_ok_of_lit (c : Char) (hc : (isWsChar c = false ∧ ¬c = ']' ∧ ¬c = '}'))
    (t : List Char) (v : Json) (hs : serialize v = c :: t) :
    ∃ c0 t0, serialize v = c0 :: t0 ∧ isWsChar c0 = false ∧ ¬c0 = ']' ∧ ¬c0 = '}' :=
  ⟨c, t, hs, hc.1, hc.2.1, hc.2.2⟩

theorem serialize_head_facts (v : Json) :
    ∃ c t, serialize v = c :: t ∧ isWsChar c = false ∧ ¬c = ']' ∧ ¬c = '}' := by
  cases v with
  | num m =>
    rcases intToChars_shape m with ⟨c, t, hs, hws, _, _, _, _, _, _, hne1, hne2⟩
    refine ⟨c, t, ?_, hws, hne1, hne2⟩
    rw [show serialize (Json.num m) = intToChars m from rfl, hs]
  | null => exact head_ok_of_lit 'n' (by decide) _ _ rfl
  | bool b =>
    cases b with
    | true => exact head_ok_of_lit 't' (by decide) _ _ rfl
    | false => exact head_ok_of_lit 'f' (by decide) _ _ rfl
  | str s => exact head_ok_of_lit '"' (by decide) _ _ rfl
  | arr xs =>
    cases xs with
    | nil => exact head_ok_of_lit '[' (by decide) _ _ rfl
    | cons x xs2 => exact head_ok_of_lit '[' (by decide) _ _ rfl
  | obj fs =>
    cases fs with
    | nil => exact head_ok_of_lit '{' (by decide) _ _ rfl
    | cons m fs2 => exact head_ok_of_lit '{' (by decide) _ _ rfl

theorem jsize_pos (v : Json) : 1 ≤ jsize v := by
  cases v <;> simp [jsize]

/-! ### Reduction lemmas for the fueled parsers -/

theorem parseValue_succ_str (f : ℕ) (X : List Char) :
    parseValue (f + 1) ('"' :: X) =
      (parseStrBody X).map (fun p => (Json.str p.1, p.2)) := rfl

theorem parseValue_succ_obj (f : ℕ) (Z : List Char) :
    parseValue (f + 1) ('{' :: '"' :: Z) =
      (parseObjMembers f ('"' :: Z)).map (fun p => (Json.obj p.1, p.2)) := rfl

theorem parseValue_succ_arr_cons (f : ℕ) (c2 : Char) (cs2 : List Char)
    (hws : isWsChar c2 = false) (hne : ¬c2 = ']') :
    parseValue (f + 1) ('[' :: c2 :: cs2) =
      (parseArrItems f (c2 :: cs2)).map (fun p => (Json.arr p.1, p.2)) := by
  show (match skipWs ('[' :: c2 :: cs2) with
    | [] => none
    | c :: rest =>
      if c = '{' then
        match skipWs rest with
        | [] => none
        | c2 :: cs2 =>
          if c2 = '}' then some (Json.obj [], cs2)
          else (parseObjMembers f (c2 :: cs2)).map
            (fun p : List (List Char × Json) × List Char => (Json.obj p.1, p.2))
      else if c = '[' then
        match skipWs rest with
        | [] => none
        | c2 :: cs2 =>
          if c2 = ']' then some (Json.arr [], cs2)
          else (parseArrItems f (c2 :: cs2)).map
            (fun p : List Json × List Char => (Json.arr p.1, p.2))
      else if c = '"' then (parseStrBody rest).map
        (fun p : List Char × List Char => (Json.str p.1, p.2))
      else if c = 't' then
        if rest.take 3 = ['r', 'u', 'e'] then some (Json.bool true, rest.drop 3) else none
      else if c = 'f' then
        if rest.take 4 = ['a', 'l', 's', 'e'] then some (Json.bool false, rest.drop 4)
        else none
      else if c = 'n' then
        if rest.take 3 = ['u', 'l', 'l'] then some (Json.null, rest.drop 3) else none
      else parseNumFrom (c :: rest)) = _
  rw [skipWs_cons_not_ws '[' _ (by decide)]
  simp only []
  rw [skipWs_cons_not_ws c2 cs2 hws]
  simp only [if_true]
  rw [if_neg hne, if_neg (show ¬('[' : Char) = '{' by decide)]

theorem parseValue_succ_other (f : ℕ) (c : Char) (cs : List Char)
    (hws : isWsChar c = false) (h1 : ¬c = '{') (h2 : ¬c = '[') (h3 : ¬c = '"')
    (h4 : ¬c = 't') (h5 : ¬c = 'f') (h6 : ¬c = 'n') :
    parseValue (f + 1) (c :: cs) = parseNumFrom (c :: cs) := by
  show (match skipWs (c :: cs) with
    | [] => none
    | c :: rest =>
      if c = '{' then
        match skipWs rest with
        | [] => none
        | c2 :: cs2 =>
          if c2 = '}' then some (Json.obj [], cs2)
          else (parseObjMembers f (c2 :: cs2)).map
            (fun p : List (List Char × Json) × List Char => (Json.obj p.1, p.2))
      else if c = '[' then
        match skipWs rest with
        | [] => none
        | c2 :: cs2 =>
          if c2 = ']' then some (Json.arr [], cs2)
          else (parseArrItems f (c2 :: cs2)).map
            (fun p : List Json × List Char => (Json.arr p.1, p.2))
      else if c = '"' then (parseStrBody rest).map
        (fun p : List Char × List Char => (Json.str p.1, p.2))
      else if c = 't' then
        if rest.take 3 = ['r', 'u', 'e'] then some (Json.bool true, rest.drop 3) else none
      else if c = 'f' then
        if rest.take 4 = ['a', 'l', 's', 'e'] then some (Json.bool false, rest.drop 4)
        else none
      else if c = 'n' then
        if rest.take 3 = ['u', 'l', 'l'] then some (Json.null, rest.drop 3) else none
      else parseNumFrom (c :: rest)) = _
  rw [skipWs_cons_not_ws c cs hws]
  simp only []
  rw [if_neg h1, if_neg h2, if_neg h3, if_neg h4, if_neg h5, if_neg h6]

theorem parseArrItems_succ (f : ℕ) (cs : List Char) :
    parseArrItems (f + 1) cs =
      match parseValue f cs with
      | none => none
      | some (v, r1) =>
        match skipWs r1 with
        | ',' :: r2 => (parseArrItems f r2).map (fun p => (v :: p.1, p.2))
        | ']' :: r2 => some ([v], r2)
        | _ => none := rfl

theorem parseObjMembers_succ_quote (f : ℕ) (rest : List Char) :
    parseObjMembers (f + 1) ('"' :: rest) =
      match parseStrBody rest with
      | none => none
      | some (k, r1) =>
        match skipWs r1 with
        | ':' :: r2 =>
          match parseValue f r2 with
          | none => none
          | some (v, r3) =>
            match skipWs r3 with
            | ',' :: r4 =>
              (parseObjMembers f (skipWs r4)).map (fun p => ((k, v) :: p.1, p.2))
            | '}' :: r4 => some ([(k, v)], r4)
            | _ => none
        | _ => none := rfl

theorem parse_ser_triple : ∀ N : ℕ,
    (∀ (v : Json) (fuel : ℕ) (rest : List Char), jsize v ≤ N → jsize v ≤ fuel →
      validJson v = true →
      (∀ m : ℤ, v = Json.num m → ∀ c, rest.head? = some c → c.isDigit = false) →
      parseValue fuel (serialize v ++ rest) = some (v, rest)) ∧
    (∀ (x : Json) (xs : List Json) (fuel : ℕ) (rest : List Char),
      asize (x :: xs) ≤ N → asize (x :: xs) ≤ fuel →
      validItems (x :: xs) = true →
      parseArrItems fuel (serialize x ++ (serializeItems xs ++ ']' :: rest)) =
        some (x :: xs, rest)) ∧
    (∀ (k : List Char) (v : Json) (fs : List (List Char × Json)) (fuel : ℕ)
      (rest : List Char),
      msize ((k, v) :: fs) ≤ N → msize ((k, v) :: fs) ≤ fuel →
      validMembers ((k, v) :: fs) = true →
      parseObjMembers fuel
        ('"' :: (k ++ '"' :: ':' :: (serialize v ++ (serializeMembers fs ++ '}' :: rest)))) =
        some ((k, v) :: fs, rest)) := by
  intro N
  induction N using Nat.strong_induction_on with
  | _ N IH =>
  refine ⟨?_, ?_, ?_⟩
  · -- values
    intro v fuel rest hN hfuel hval hnum
    have hj1 := jsize_pos v
    rcases fuel with _ | f
    · omega
    cases v with
    | null => exact rfl
    | bool b => cases b <;> exact rfl
    | num m =>
      show parseValue (f + 1) (intToChars m ++ rest) = some (Json.num m, rest)
      rcases intToChars_shape m with ⟨c0, t0, hshape, hws, h1, h2, h3, h4, h5, h6, _, _⟩
      rw [hshape, List.cons_append,
        parseValue_succ_other f c0 _ hws h1 h2 h3 h4 h5 h6,
        ← List.cons_append, ← hshape]
      exact parseNumFrom_ser m rest (hnum m rfl)
    | str s =>
      have hrw : serialize (Json.str s) ++ rest = '"' :: (s ++ '"' :: rest) := by
        simp [serialize, List.append_assoc]
      rw [hrw, parseValue_succ_str]
      have hk : s.all okStrChar = true := by simpa [validJson] using hval
      rw [parseStrBody_ser s rest hk]
      rfl
    | arr xs =>
      cases xs with
      | nil => exact rfl
      | cons x xs2 =>
        have hrw : serialize (Json.arr (x :: xs2)) ++ rest =
            '[' :: (serialize x ++ (serializeItems xs2 ++ ']' :: rest)) := by
          simp [serialize, List.append_assoc]
        rw [hrw]
        rcases serialize_head_facts x with ⟨c0, t0, hs0, hws0, hne0, _⟩
        rw [hs0, List.cons_append, parseValue_succ_arr_cons f c0 _ hws0 hne0,
          ← List.cons_append, ← hs0]
        simp only [jsize] at hN hfuel
        have hlt : N - 1 < N := by omega
        have ha := (IH (N - 1) hlt).2.1 x xs2 f rest (by omega) (by omega)
          (by simp only [validJson] at hval; exact hval)
        rw [ha]
        rfl
    | obj fs =>
      cases fs with
      | nil => exact rfl
      | cons m fs2 =>
        obtain ⟨k, v0⟩ := m
        have hrw : serialize (Json.obj ((k, v0) :: fs2)) ++ rest =
            '{' :: '"' ::
              (k ++ '"' :: ':' :: (serialize v0 ++ (serializeMembers fs2 ++ '}' :: rest))) := by
          simp [serialize, serializeMember, List.append_assoc]
        rw [hrw, parseValue_succ_obj]
        simp only [jsize] at hN hfuel
        have hlt : N - 1 < N := by omega
        have hvm : validMembers ((k, v0) :: fs2) = true := by
          have h := hval
          simp only [validJson, Bool.and_eq_true] at h
          exact h.1
        have hm := (IH (N - 1) hlt).2.2 k v0 fs2 f rest (by omega) (by omega) hvm
        rw [hm]
        rfl
  · -- array items
    intro x xs fuel rest hN hfuel hval
    simp only [asize] at hN hfuel
    have hjx := jsize_pos x
    rcases fuel with _ | f
    · omega
    rw [parseArrItems_succ]
    have hvx : validJson x = true := by
      simp only [validItems, Bool.and_eq_true] at hval
      exact hval.1
    have hnum : ∀ m : ℤ, x = Json.num m →
        ∀ c, (serializeItems xs ++ ']' :: rest).head? = some c → c.isDigit = false := by
      intro m _ c hc
      cases xs with
      | nil =>
        simp [serializeItems] at hc
        rw [← hc]
        decide
      | cons y ys =>
        simp [serializeItems] at hc
        rw [← hc]
        decide
    have hlt : N - 1 < N := by omega
    have hv := (IH (N - 1) hlt).1 x f (serializeItems xs ++ ']' :: rest)
      (by omega) (by omega) hvx hnum
    rw [hv]
    simp only []
    cases xs with
    | nil =>
      simp only [serializeItems, List.nil_append]
      rw [skipWs_cons_not_ws ']' _ (by decide)]
      rfl
    | cons y ys =>
      have hys : serializeItems (y :: ys) ++ ']' :: rest =
          ',' :: (serialize y ++ (serializeItems ys ++ ']' :: rest)) := by
        simp [serializeItems, List.append_assoc]
      rw [hys, skipWs_cons_not_ws ',' _ (by decide)]
      simp only []
      have hay : asize (y :: ys) ≤ N - 1 ∧ asize (y :: ys) ≤ f := by
        simp only [asize] at hN hfuel ⊢
        omega
      have ha := (IH (N - 1) hlt).2.1 y ys f rest hay.1 hay.2
        (by
          simp only [validItems, Bool.and_eq_true] at hval ⊢
          exact hval.2)
      rw [ha]
      rfl
  · -- object members
    intro k v fs fuel rest hN hfuel hval
    simp only [msize] at hN hfuel
    have hjv := jsize_pos v
    rcases fuel with _ | f
    · omega
    rw [parseObjMembers_succ_quote]
    simp only [validMembers, Bool.and_eq_true] at hval
    rw [parseStrBody_ser k _ hval.1.1]
    simp only []
    rw [skipWs_cons_not_ws ':' _ (by decide)]
    simp only []
    have hnum : ∀ m : ℤ, v = Json.num m →
        ∀ c, (serializeMembers fs ++ '}' :: rest).head? = some c → c.isDigit = false := by
      intro m _ c hc
      cases fs with
      | nil =>
        simp [serializeMembers] at hc
        rw [← hc]
        decide
      | cons m2 fs2 =>
        rcases m2 with ⟨k2, v2⟩
        simp [serializeMembers] at hc
        rw [← hc]
        decide
    have hlt : N - 1 < N := by omega
    have hv := (IH (N - 1) hlt).1 v f (serializeMembers fs ++ '}' :: rest)
      (by omega) (by omega) hval.1.2 hnum
    rw [hv]
    simp only []
    cases fs with
    | nil =>
      simp only [serializeMembers, List.nil_append]
      rw [skipWs_cons_not_ws '}' _ (by decide)]
      rfl
    | cons m2 fs2 =>
      rcases m2 with ⟨k2, v2⟩
      have hms : serializeMembers ((k2, v2) :: fs2) ++ '}' :: rest =
          ',' :: ('"' ::
            (k2 ++ '"' :: ':' :: (serialize v2 ++ (serializeMembers fs2 ++ '}' :: rest)))) := by
        simp [serializeMembers, serializeMember, List.append_assoc]
      rw [hms, skipWs_cons_not_ws ',' _ (by decide)]
      simp only []
      rw [skipWs_cons_not_ws '"' _ (by decide)]
      have hm2 : msize ((k2, v2) :: fs2) ≤ N - 1 ∧ msize ((k2, v2) :: fs2) ≤ f := by
        simp only [msize] at hN hfuel ⊢
        omega
      have hmm := (IH (N - 1) hlt).2.2 k2 v2 fs2 f rest hm2.1 hm2.2 hval.2
      rw [hmm]
      rfl

/-! ### Normalizer roundtrip theorems -/

theorem serialize_obj_shape (fs : List (List Char × Json)) :
    ∃ A, serialize (Json.obj fs) = '{' :: A ++ ['}'] := by
  cases fs with
  | nil => exact ⟨[], rfl⟩
  | cons m fs2 =>
    exact ⟨serializeMember m ++ serializeMembers fs2, by simp [serialize]⟩

theorem jsize_le_serialize : ∀ N : ℕ,
    (∀ v, jsize v ≤ N → jsize v ≤ (serialize v).length) ∧
    (∀ x xs, asize (x :: xs) ≤ N →
      asize (x :: xs) ≤ (serialize x).length + (serializeItems xs).length + 1) ∧
    (∀ k v fs, msize ((k, v) :: fs) ≤ N →
      msize ((k, v) :: fs) ≤
        (serializeMember (k, v)).length + (serializeMembers fs).length + 1) := by
  intro N
  induction N using Nat.strong_induction_on with
  | _ N IH =>
  refine ⟨?_, ?_, ?_⟩
  · intro v hN
    cases v with
    | null => simp [serialize, jsize]
    | bool b => cases b <;> simp [serialize, jsize]
    | num m =>
      rcases intToChars_shape m with ⟨c, t, hs, _⟩
      have : serialize (Json.num m) = c :: t := hs
      simp [this, jsize]
    | str s => simp [serialize, jsize]
    | arr xs =>
      cases xs with
      | nil => simp [serialize, jsize, asize]
      | cons x xs2 =>
        simp only [jsize] at hN ⊢
        have hlt : N - 1 < N := by
          have := jsize_pos x
          simp only [asize] at hN
          omega
        have ha := (IH (N - 1) hlt).2.1 x xs2 (by omega)
        simp only [serialize, List.length_cons, List.length_append]
        omega
    | obj fs =>
      cases fs with
      | nil => simp [serialize, jsize, msize]
      | cons m fs2 =>
        obtain ⟨k, v0⟩ := m
        simp only [jsize] at hN ⊢
        have hlt : N - 1 < N := by
          have := jsize_pos v0
          simp only [msize] at hN
          omega
        have hm := (IH (N - 1) hlt).2.2 k v0 fs2 (by omega)
        simp only [serialize, List.length_cons, List.length_append]
        omega
  · intro x xs hN
    simp only [asize] at hN ⊢
    have hjx := jsize_pos x
    have hlt : N - 1 < N := by omega
    have hx := (IH (N - 1) hlt).1 x (by omega)
    cases xs with
    | nil =>
      simp only [asize, serializeItems, List.length_nil]
      omega
    | cons y ys =>
      have hy := (IH (N - 1) hlt).2.1 y ys (by
        have := jsize_pos y
        simp only [asize] at hN ⊢
        omega)
      simp only [asize] at hy ⊢
      simp only [serializeItems, List.length_cons, List.length_append]
      omega
  · intro k v fs hN
    simp only [msize] at hN ⊢
    have hjv := jsize_pos v
    have hlt : N - 1 < N := by omega
    have hv := (IH (N - 1) hlt).1 v (by omega)
    have hmemlen : (serializeMember (k, v)).length = k.length + (serialize v).length + 3 := by
      simp [serializeMember]
      omega
    cases fs with
    | nil =>
      simp only [msize, serializeMembers, List.length_nil]
      omega
    | cons m2 fs2 =>
      obtain ⟨k2, v2⟩ := m2
      have h2 := (IH (N - 1) hlt).2.2 k2 v2 fs2 (by
        have := jsize_pos v2
        simp only [msize] at hN ⊢
        omega)
      simp only [msize] at h2 ⊢
      simp only [serializeMembers, List.length_cons, List.length_append]
      omega

/-- A full `JSON.parse` of a serialized object followed by a tail succeeds
exactly when the tail is whitespace. -/
theorem jsonParseFull_obj_append (fs : List (List Char × Json)) (S : List Char)
    (hval : validJson (Json.obj fs) = true) :
    jsonParseFull (serialize (Json.obj fs) ++ S) =
      if S.all isWsChar then some (Json.obj fs) else none := by
  have hfuel : jsize (Json.obj fs) ≤ (serialize (Json.obj fs) ++ S).length + 1 := by
    have h1 := (jsize_le_serialize (jsize (Json.obj fs))).1 (Json.obj fs) le_rfl
    simp only [List.length_append]
    omega
  have hv := (parse_ser_triple (jsize (Json.obj fs))).1 (Json.obj fs)
    ((serialize (Json.obj fs) ++ S).length + 1) S le_rfl hfuel hval
    (by intro m hm; exact absurd hm (by simp))
  unfold jsonParseFull
  rw [hv]

theorem jsonParseFull_ser_obj (fs : List (List Char × Json))
    (hval : validJson (Json.obj fs) = true) :
    jsonParseFull (serialize (Json.obj fs)) = some (Json.obj fs) := by
  have h := jsonParseFull_obj_append fs [] hval
  simpa using h

theorem parseValue_succ_t (f : ℕ) (rest : List Char) :
    parseValue (f + 1) ('t' :: rest) =
      if rest.take 3 = ['r', 'u', 'e'] then some (Json.bool true, rest.drop 3)
      else none := rfl

theorem parseValue_succ_f (f : ℕ) (rest : List Char) :
    parseValue (f + 1) ('f' :: rest) =
      if rest.take 4 = ['a', 'l', 's', 'e'] then some (Json.bool false, rest.drop 4)
      else none := rfl

theorem parseValue_succ_n (f : ℕ) (rest : List Char) :
    parseValue (f + 1) ('n' :: rest) =
      if rest.take 3 = ['u', 'l', 'l'] then some (Json.null, rest.drop 3)
      else none := rfl

/-- A literal-keyword parse that succeeds on junk leaves a leftover containing
the embedded brace, hence not all-whitespace. -/
theorem drop_all_ws_false (n : ℕ) (rest : List Char) (htake : '{' ∉ rest.take n)
    (hmem : '{' ∈ rest) : (rest.drop n).all isWsChar = false := by
  have hsplit : '{' ∈ rest.take n ++ rest.drop n := by
    rw [List.take_append_drop]
    exact hmem
  rcases List.mem_append.mp hsplit with h | h
  · exact absurd h htake
  · exact all_false_of_mem _ _ '{' h (by decide)

/-- Direct `JSON.parse` of a text whose first character is not whitespace and
not one of the value openers, but which still contains a `{` later, fails. -/
theorem jsonParseFull_junk (c : Char) (rest : List Char) (hws : isWsChar c = false)
    (h1 : ¬c = '{') (h2 : ¬c = '[') (h3 : ¬c = '"') (hmem : '{' ∈ rest) :
    jsonParseFull (c :: rest) = none := by
  unfold jsonParseFull
  simp only [List.length_cons]
  by_cases h4 : c = 't'
  · subst h4
    rw [parseValue_succ_t]
    split_ifs with ht
    · have hall := drop_all_ws_false 3 rest (by rw [ht]; decide) hmem
      simp [hall]
    · rfl
  by_cases h5 : c = 'f'
  · subst h5
    rw [parseValue_succ_f]
    split_ifs with ht
    · have hall := drop_all_ws_false 4 rest (by rw [ht]; decide) hmem
      simp [hall]
    · rfl
  by_cases h6 : c = 'n'
  · subst h6
    rw [parseValue_succ_n]
    split_ifs with ht
    · have hall := drop_all_ws_false 3 rest (by rw [ht]; decide) hmem
      simp [hall]
    · rfl
  rw [parseValue_succ_other (rest.length + 1) c rest hws h1 h2 h3 h4 h5 h6]
  simp only [parseNumFrom]
  by_cases h7 : c = '-'
  · rw [if_pos h7]
    rcases hp : parseNatFrom rest with _ | ⟨val, rem⟩
    · rfl
    · have hrem : rem = rest.dropWhile Char.isDigit := by
        simp only [parseNatFrom] at hp
        split_ifs at hp with hds
        exact ((Prod.ext_iff.mp (Option.some.inj hp)).2).symm
      have hmem2 : '{' ∈ rem := by
        rw [hrem]
        exact mem_dropWhile_of_mem _ rest '{' hmem (by decide)
      have hall := all_false_of_mem isWsChar rem '{' hmem2 (by decide)
      simp [hall]
  · rw [if_neg h7]
    rcases hp : parseNatFrom (c :: rest) with _ | ⟨val, rem⟩
    · rfl
    · have hrem : rem = (c :: rest).dropWhile Char.isDigit := by
        simp only [parseNatFrom] at hp
        split_ifs at hp with hds
        exact ((Prod.ext_iff.mp (Option.some.inj hp)).2).symm
      have hmem2 : '{' ∈ rem := by
        rw [hrem]
        exact mem_dropWhile_of_mem _ (c :: rest) '{'
          (List.mem_cons_of_mem c hmem) (by decide)
      have hall := all_false_of_mem isWsChar rem '{' hmem2 (by decide)
      simp [hall]

/-- The greedy first-`{`-to-last-`}` span of a brace-delimited block embedded
between `{`-free and `}`-free surroundings is exactly the block. -/
theorem braceSpan_embed (P A S : List Char)
    (hP : ∀ c ∈ P, ¬c = '{') (hS : ∀ c ∈ S, ¬c = '}') :
    braceSpan (P ++ ('{' :: A ++ ['}']) ++ S) = some ('{' :: A ++ ['}']) := by
  have hi : (P ++ ('{' :: A ++ ['}']) ++ S).findIdx? (fun c => c = '{') = some P.length := by
    rw [List.append_assoc,
      findIdx_append_all_false _ P _ (fun c hc => by simp [hP c hc])]
    simp [List.findIdx?_cons]
  have hk : (P ++ ('{' :: A ++ ['}']) ++ S).reverse.findIdx? (fun c => c = '}') =
      some S.length := by
    rw [List.reverse_append, List.reverse_append]
    have hrev : ('{' :: A ++ ['}']).reverse = '}' :: (A.reverse ++ ['{']) := by
      simp
    rw [hrev]
    rw [findIdx_append_all_false _ S.reverse _
      (fun c hc => by simp [hS c (List.mem_reverse.mp hc)])]
    simp [List.findIdx?_cons]
  unfold braceSpan
  rw [hi, hk]
  simp only []
  have hlen : (P ++ ('{' :: A ++ ['}']) ++ S).length =
      P.length + (A.length + 2) + S.length := by
    simp
    try omega
  rw [hlen]
  have hj : P.length + (A.length + 2) + S.length - 1 - S.length =
      P.length + (A.length + 1) := by omega
  rw [hj, if_pos (by omega)]
  have hdrop : (P ++ ('{' :: A ++ ['}']) ++ S).drop P.length =
      ('{' :: A ++ ['}']) ++ S := by
    rw [List.append_assoc]
    exact List.drop_left P _
  rw [hdrop]
  have htake : P.length + (A.length + 1) - P.length + 1 = ('{' :: A ++ ['}']).length := by
    simp
    try omega
  rw [htake, List.take_left]

theorem trimChars_decomp (x : List Char) :
    x.dropWhile isWsChar =
      trimChars x ++ ((x.dropWhile isWsChar).reverse.takeWhile isWsChar).reverse := by
  have h := List.takeWhile_append_dropWhile (p := isWsChar)
    (l := (x.dropWhile isWsChar).reverse)
  calc x.dropWhile isWsChar
      = ((x.dropWhile isWsChar).reverse).reverse := (List.reverse_reverse _).symm
    _ = (((x.dropWhile isWsChar).reverse.takeWhile isWsChar) ++
          ((x.dropWhile isWsChar).reverse.dropWhile isWsChar)).reverse := by rw [h]
    _ = trimChars x ++ ((x.dropWhile isWsChar).reverse.takeWhile isWsChar).reverse := by
        rw [List.reverse_append]
        rfl

theorem trimChars_head_not_ws (x : List Char) (c : Char)
    (h : (trimChars x).head? = some c) : isWsChar c = false := by
  have hd := trimChars_decomp x
  have hh : (x.dropWhile isWsChar).head? = some c := by
    rw [hd, List.head?_append, h]
    rfl
  exact head_dropWhile_false isWsChar x c hh

theorem trimChars_getLast_not_ws (x : List Char) (c : Char)
    (h : (trimChars x).getLast? = some c) : isWsChar c = false := by
  unfold trimChars at h
  rw [List.getLast?_reverse] at h
  exact head_dropWhile_false isWsChar _ c h

/-- C3 counterexample: the text `ok {"a":1} end}` embeds the valid JSON
object `{"a":1}` in surrounding prose, but the prose contains a later `}`;
the direct parse fails, the greedy span `{"a":1} end}` fails to parse, and
the extraction throws instead of recovering the object.  The round-trip for
arbitrary surrounding prose is therefore false. -/
theorem normalize_roundtrip_cx :
    normalize (['o', 'k', ' '] ++ serialize (Json.obj [(['a'], Json.num 1)]) ++
      [' ', 'e', 'n', 'd', '}']) = NormResult.failed := rfl

/-- C3 amended: `normalize` recovers the embedded object whenever, after
fence stripping and trimming, the text is the serialized object surrounded by
prose that contains no `{`, `[` or `"` before it and no `}` after it (the
prose may contain whitespace and backtick fences; the object is any valid
JSON object in the modelled subset). -/
theorem normalize_roundtrip_amended (fs : List (List Char × Json)) (raw P S : List Char)
    (hval : validJson (Json.obj fs) = true)
    (hstrip : stripRaw raw = P ++ serialize (Json.obj fs) ++ S)
    (hP : ∀ c ∈ P, ¬c = '{' ∧ ¬c = '[' ∧ ¬c = '"')
    (hS : ∀ c ∈ S, ¬c = '}') :
    normalize raw = NormResult.parsed (Json.obj fs) := by
  rcases serialize_obj_shape fs with ⟨A, hA⟩
  simp only [normalize]
  rw [hstrip]
  cases P with
  | nil =>
    rw [List.nil_append]
    by_cases hSnil : S = []
    · subst hSnil
      rw [List.append_nil, jsonParseFull_ser_obj fs hval]
    · obtain ⟨sl, hsl⟩ : ∃ sl, S.getLast? = some sl :=
        ⟨S.getLast hSnil, List.getLast?_eq_getLast_of_ne_nil hSnil⟩
      have hslws : isWsChar sl = false := by
        apply trimChars_getLast_not_ws (removeTriple (removeJsonTag raw)) sl
        show (stripRaw raw).getLast? = some sl
        rw [hstrip, List.nil_append, List.getLast?_append, hsl]
        rfl
      have hslmem : sl ∈ S := List.mem_of_mem_getLast? (by rw [hsl]; rfl)
      have hallS : S.all isWsChar = false := all_false_of_mem _ _ sl hslmem hslws
      rw [jsonParseFull_obj_append fs S hval,
        if_neg (by rw [hallS]; exact Bool.false_ne_true)]
      simp only []
      have hb := braceSpan_embed [] A S (by simp) hS
      rw [List.nil_append] at hb
      rw [hA, hb]
      simp only []
      rw [← hA, jsonParseFull_ser_obj fs hval]
  | cons p0 P2 =>
    have hp0 := hP p0 (List.mem_cons_self _ _)
    have hp0ws : isWsChar p0 = false := by
      apply trimChars_head_not_ws (removeTriple (removeJsonTag raw)) p0
      show (stripRaw raw).head? = some p0
      rw [hstrip]
      simp
    have hmemb : '{' ∈ P2 ++ serialize (Json.obj fs) ++ S := by
      rw [hA]
      simp
    have hjunk := jsonParseFull_junk p0 (P2 ++ serialize (Json.obj fs) ++ S) hp0ws
      hp0.1 hp0.2.1 hp0.2.2 hmemb
    have hjunk2 : jsonParseFull ((p0 :: P2) ++ serialize (Json.obj fs) ++ S) = none := by
      rw [List.cons_append, List.cons_append]
      exact hjunk
    rw [hjunk2]
    simp only []
    have hb := braceSpan_embed (p0 :: P2) A S (fun c hc => (hP c hc).1) hS
    rw [hA, hb]
    simp only []
    rw [← hA, jsonParseFull_ser_obj fs hval]

theorem normalize_roundtrip_amended_wit :
    normalize (['S', 'u', 'r', 'e', '!', ' ', '`', '`', '`', 'j', 's', 'o', 'n', '\n'] ++
        serialize (Json.obj [(['a'], Json.num 1)]) ++
        ['\n', '`', '`', '`', ' ', 't', 'h', 'a', 'n', 'k', 's']) =
      NormResult.parsed (Json.obj [(['a'], Json.num 1)]) :=
  normalize_roundtrip_amended [(['a'], Json.num 1)] _
    ['S', 'u', 'r', 'e', '!', ' ', '\n'] ['\n', ' ', 't', 'h', 'a', 'n', 'k', 's']
    rfl rfl (by decide) (by decide)


end Keia
